import Mathlib

/-!
Shallow embedding of `src/src/legacy_sample.cpp` (namespace `legacy_sample`):
the bounded string copy `copy_cstr` and the zero-divisor-tolerant division
`safe_div`, together with proofs of the specified contracts.

Modelling conventions:
* A `char*` pointer that may be null is an `Option`.
* A C string (the characters before its terminator) is a `List Char`;
  `std::strlen` of such a string is the list's length.
* The destination buffer is a `List Char` whose length is the number of
  physically addressable slots; writes are `List.set`, which mirrors an
  in-bounds store (an index past the physical end would be an out-of-bounds
  store in C, which the theorems exclude by hypothesis).
* `copy_cstr` returns the new buffer contents together with the byte count,
  making the in-place mutation of the destination explicit.
* C++ `int` is 32-bit two's complement; signed division is defined exactly
  when the truncating quotient is representable, so `safe_div` returns an
  `Option Int`, with `none` marking undefined behavior.
-/

namespace LegacySample

/-- The terminating character `'\0'` written by `copy_cstr`. -/
def nulChar : Char := Char.ofNat 0

/-- Model of `std::memcpy(d, s, n)` restricted to the call in `copy_cstr`:
the first `n` bytes of `s` overwrite the first `n` slots of `d`. -/
def memcpy (d s : List Char) (n : Nat) : List Char :=
  s.take n ++ d.drop n

/-- Model of `copy_cstr(dst, dst_size, src)` from `src/src/legacy_sample.cpp`:

    if (dst == nullptr || dst_size == 0) return 0;
    if (src == nullptr) { dst[0] = '\0'; return 0; }
    std::size_t n = std::strlen(src);
    if (n >= dst_size) n = dst_size - 1;  // keep room for '\0'
    std::memcpy(dst, src, n);
    dst[n] = '\0';
    return n;

The result pairs the destination's new contents with the returned count. -/
def copy_cstr (dst : Option (List Char)) (dst_size : Nat) (src : Option (List Char)) :
    Option (List Char) × Nat :=
  match dst with
  | none => (none, 0)
  | some buf =>
    if dst_size = 0 then (some buf, 0)
    else
      match src with
      | none => (some (buf.set 0 nulChar), 0)
      | some s =>
        let n0 := s.length
        let n := if n0 ≥ dst_size then dst_size - 1 else n0
        (some ((memcpy buf s n).set n nulChar), n)

/-- INT_MIN for the 32-bit `int` of the source, `-(2^31)`. -/
def intMin : Int := -2147483648

/-- INT_MAX for the 32-bit `int` of the source, `2^31 - 1`. -/
def intMax : Int := 2147483647

/-- A value representable in the source's 32-bit `int`. -/
def IntRepr (x : Int) : Prop := intMin ≤ x ∧ x ≤ intMax

instance (x : Int) : Decidable (IntRepr x) :=
  inferInstanceAs (Decidable (intMin ≤ x ∧ x ≤ intMax))

/-- Model of `safe_div(a, b)` from `src/src/legacy_sample.cpp`:

    if (b == 0) return 0;
    return a / b;

C++ `/` on `int` truncates toward zero (`Int.tdiv`) and is undefined when
the quotient is not representable, which `none` records. -/
def safe_div (a b : Int) : Option Int :=
  if b = 0 then some 0
  else
    let q := a.tdiv b
    if intMin ≤ q ∧ q ≤ intMax then some q else none

/-! Helper lemmas about the embedded operations. -/

lemma copy_cstr_some_none (buf : List Char) (sz : Nat) (h : sz ≠ 0) :
    copy_cstr (some buf) sz none = (some (buf.set 0 nulChar), 0) := by
  simp [copy_cstr, h]

lemma copy_cstr_some_some (buf s : List Char) (sz : Nat) (h : sz ≠ 0) :
    copy_cstr (some buf) sz (some s) =
      (some ((memcpy buf s (if s.length ≥ sz then sz - 1 else s.length)).set
          (if s.length ≥ sz then sz - 1 else s.length) nulChar),
        if s.length ≥ sz then sz - 1 else s.length) := by
  simp [copy_cstr, h]

lemma memcpy_length (d s : List Char) (n : Nat) (hs : n ≤ s.length) :
    (memcpy d s n).length = max n d.length := by
  simp [memcpy]
  omega

lemma memcpy_getElem (d s : List Char) (n i : Nat) (hs : n ≤ s.length) :
    (memcpy d s n)[i]? = if i < n then s[i]? else d[i]? := by
  rw [memcpy, List.getElem?_append, List.length_take, Nat.min_eq_left hs]
  by_cases h : i < n
  · rw [if_pos h, if_pos h, List.getElem?_take, if_pos h]
  · rw [if_neg h, if_neg h, List.getElem?_drop]
    congr 1
    omega

lemma write_getElem (buf s : List Char) (n i : Nat) (hs : n ≤ s.length) :
    ((memcpy buf s n).set n nulChar)[i]? =
      if i < n then s[i]?
      else if i = n then (if n < max n buf.length then some nulChar else none)
      else buf[i]? := by
  rw [List.getElem?_set, memcpy_length buf s n hs, memcpy_getElem buf s n i hs]
  by_cases h1 : n = i
  · subst h1
    simp
  · rw [if_neg h1]
    by_cases h2 : i < n
    · rw [if_pos h2, if_pos h2]
    · rw [if_neg h2, if_neg h2, if_neg (fun hh : i = n => h1 hh.symm)]

/-! Theorems settling the claims. -/

/-- C5: for every integer `a`, `safe_div(a, 0)` returns the sentinel value 0
and does not signal an error (the call is defined, returning `some 0`). -/
theorem safe_div_zero_divisor (a : Int) : safe_div a 0 = some 0 := by
  simp [safe_div]

/-- C9: division by one is an identity: for every representable integer `a`,
`safe_div(a, 1) = a`. -/
theorem safe_div_one_identity (a : Int) (ha : IntRepr a) : safe_div a 1 = some a := by
  obtain ⟨h1, h2⟩ := ha
  simp [safe_div, Int.tdiv_one, h1, h2]

theorem safe_div_one_identity_witness : IntRepr 5 ∧ safe_div 5 1 = some 5 :=
  ⟨by decide, safe_div_one_identity 5 (by decide)⟩

/-- C6: whenever the destination is null or the capacity is 0, `copy_cstr`
performs no writes (the destination, if any, is returned unchanged) and
returns 0. -/
theorem copy_cstr_no_buffer (dst : Option (List Char)) (sz : Nat) (src : Option (List Char))
    (h : dst = none ∨ sz = 0) : copy_cstr dst sz src = (dst, 0) := by
  rcases h with h | h
  · subst h
    rfl
  · subst h
    cases dst with
    | none => rfl
    | some buf => simp [copy_cstr]

theorem copy_cstr_no_buffer_witness :
    ((none : Option (List Char)) = none ∨ (10 : Nat) = 0) ∧
      copy_cstr none 10 (some ['a', 'b', 'c']) = (none, 0) :=
  ⟨Or.inl rfl, copy_cstr_no_buffer none 10 (some ['a', 'b', 'c']) (Or.inl rfl)⟩

/-- C7: with a non-null destination, positive capacity and a null source,
`copy_cstr` writes a single terminator at index 0, leaves every other slot
unchanged, and returns 0. -/
theorem copy_cstr_null_source (buf : List Char) (sz : Nat) (h0 : 0 < sz)
    (hcap : sz ≤ buf.length) :
    copy_cstr (some buf) sz none = (some (buf.set 0 nulChar), 0) ∧
      (buf.set 0 nulChar)[0]? = some nulChar ∧
      ∀ i, i ≠ 0 → (buf.set 0 nulChar)[i]? = buf[i]? := by
  refine ⟨copy_cstr_some_none buf sz (Nat.pos_iff_ne_zero.mp h0), ?_, ?_⟩
  · rw [List.getElem?_set, if_pos rfl, if_pos (by omega)]
  · intro i hi
    rw [List.getElem?_set, if_neg (fun hh : 0 = i => hi hh.symm)]

theorem copy_cstr_null_source_witness :
    0 < 2 ∧ 2 ≤ (['x', 'x'] : List Char).length ∧
      copy_cstr (some ['x', 'x']) 2 none = (some ((['x', 'x'] : List Char).set 0 nulChar), 0) :=
  ⟨by decide, by decide, (copy_cstr_null_source ['x', 'x'] 2 (by decide) (by decide)).1⟩

/-- C10: with a non-null destination and capacity exactly 1, `copy_cstr`
writes a terminator at index 0, copies nothing from the source, and returns
0, whether the source is null or a string of any length. -/
theorem copy_cstr_capacity_one (buf : List Char) (src : Option (List Char)) :
    copy_cstr (some buf) 1 src = (some (buf.set 0 nulChar), 0) := by
  cases src with
  | none => simp [copy_cstr]
  | some s =>
    rw [copy_cstr_some_some buf s 1 (by omega)]
    have h : (if s.length ≥ 1 then 1 - 1 else s.length) = 0 := by
      split <;> omega
    rw [h]
    simp [memcpy]

/-- C2: with a non-null destination, positive capacity and a non-null source
of length `L`, `copy_cstr` returns `n = min L (capacity - 1)`, the first `n`
slots of the destination equal the first `n` units of the source, and the
slot at index `n` holds the terminator. -/
theorem copy_cstr_truncating_copy (buf s : List Char) (sz : Nat) (h0 : 0 < sz)
    (hcap : sz ≤ buf.length) :
    ∃ buf', copy_cstr (some buf) sz (some s) = (some buf', min s.length (sz - 1)) ∧
      buf'.take (min s.length (sz - 1)) = s.take (min s.length (sz - 1)) ∧
      buf'[min s.length (sz - 1)]? = some nulChar := by
  have hsz : sz ≠ 0 := Nat.pos_iff_ne_zero.mp h0
  have hn : (if s.length ≥ sz then sz - 1 else s.length) = min s.length (sz - 1) := by
    split <;> omega
  have hns : min s.length (sz - 1) ≤ s.length := by omega
  refine ⟨(memcpy buf s (min s.length (sz - 1))).set (min s.length (sz - 1)) nulChar, ?_, ?_, ?_⟩
  · rw [copy_cstr_some_some buf s sz hsz, hn]
  · apply List.ext_getElem?
    intro i
    rw [List.getElem?_take, List.getElem?_take]
    by_cases hi : i < min s.length (sz - 1)
    · rw [if_pos hi, if_pos hi, write_getElem buf s _ i hns, if_pos hi]
    · rw [if_neg hi, if_neg hi]
  · rw [write_getElem buf s _ _ hns, if_neg (by omega), if_pos rfl, if_pos (by omega)]

theorem copy_cstr_truncating_copy_witness :
    0 < 4 ∧ 4 ≤ (['w', 'w', 'w', 'w'] : List Char).length ∧
      (copy_cstr (some ['w', 'w', 'w', 'w']) 4 (some ['a', 'b', 'c', 'd', 'e', 'f'])).2 =
        min (['a', 'b', 'c', 'd', 'e', 'f'] : List Char).length (4 - 1) := by
  refine ⟨by decide, by decide, ?_⟩
  obtain ⟨buf', h1, h2, h3⟩ :=
    copy_cstr_truncating_copy ['w', 'w', 'w', 'w'] ['a', 'b', 'c', 'd', 'e', 'f'] 4
      (by decide) (by decide)
  rw [h1]

/-- C1: with a non-null destination and a positive capacity, after the call
the destination holds a null-terminated string (a terminator sits at the
returned index, which is below the capacity), the returned count is at most
`capacity - 1`, and no slot at an index at or beyond the capacity is
written, regardless of the source argument. -/
theorem copy_cstr_safety (buf : List Char) (sz : Nat) (src : Option (List Char))
    (h0 : 0 < sz) (hcap : sz ≤ buf.length) :
    ∃ buf', (copy_cstr (some buf) sz src).1 = some buf' ∧
      (copy_cstr (some buf) sz src).2 ≤ sz - 1 ∧
      buf'.length = buf.length ∧
      buf'[(copy_cstr (some buf) sz src).2]? = some nulChar ∧
      ∀ i, sz ≤ i → buf'[i]? = buf[i]? := by
  have hsz : sz ≠ 0 := Nat.pos_iff_ne_zero.mp h0
  cases src with
  | none =>
    rw [copy_cstr_some_none buf sz hsz]
    refine ⟨buf.set 0 nulChar, rfl, by omega, List.length_set buf 0 nulChar, ?_, ?_⟩
    · rw [List.getElem?_set, if_pos rfl, if_pos (by omega)]
    · intro i hi
      rw [List.getElem?_set, if_neg (by omega)]
  | some s =>
    obtain ⟨n, hN⟩ : ∃ m, (if s.length ≥ sz then sz - 1 else s.length) = m := ⟨_, rfl⟩
    have hns : n ≤ s.length := by
      rw [← hN]
      split <;> omega
    have hle : n ≤ sz - 1 := by
      rw [← hN]
      split <;> omega
    rw [copy_cstr_some_some buf s sz hsz, hN]
    refine ⟨(memcpy buf s n).set n nulChar, rfl, hle, ?_, ?_, ?_⟩
    · rw [List.length_set, memcpy_length buf s n hns]
      omega
    · rw [write_getElem buf s n n hns, if_neg (by omega), if_pos rfl, if_pos (by omega)]
    · intro i hi
      rw [write_getElem buf s n i hns, if_neg (by omega), if_neg (by omega)]

theorem copy_cstr_safety_witness :
    0 < 2 ∧ 2 ≤ (['x', 'x', 'x'] : List Char).length ∧
      (copy_cstr (some ['x', 'x', 'x']) 2 (some ['a', 'b', 'c'])).2 ≤ 2 - 1 := by
  refine ⟨by decide, by decide, ?_⟩
  obtain ⟨buf', h1, h2, h3, h4, h5⟩ :=
    copy_cstr_safety ['x', 'x', 'x'] 2 (some ['a', 'b', 'c']) (by decide) (by decide)
  exact h2

lemma copy_write_idem (buf s : List Char) (n : Nat) (hns : n ≤ s.length) :
    (memcpy ((memcpy buf s n).set n nulChar) s n).set n nulChar =
      (memcpy buf s n).set n nulChar := by
  apply List.ext_getElem?
  intro i
  rw [write_getElem buf s n i hns, write_getElem ((memcpy buf s n).set n nulChar) s n i hns]
  by_cases h1 : i < n
  · rw [if_pos h1, if_pos h1]
  · rw [if_neg h1, if_neg h1]
    by_cases h2 : i = n
    · rw [if_pos h2, if_pos h2, List.length_set, memcpy_length buf s n hns,
        ← max_assoc, max_self]
    · rw [if_neg h2, if_neg h2, write_getElem buf s n i hns, if_neg h1, if_neg h2]

/-- C8: `copy_cstr` is idempotent: a second call with the same capacity and
source on the destination produced by a first call leaves the destination
contents and the return value unchanged. -/
theorem copy_cstr_idempotent (dst : Option (List Char)) (sz : Nat) (src : Option (List Char)) :
    copy_cstr (copy_cstr dst sz src).1 sz src = copy_cstr dst sz src := by
  cases dst with
  | none => rfl
  | some buf =>
    by_cases hsz : sz = 0
    · subst hsz
      simp [copy_cstr]
    · cases src with
      | none =>
        rw [copy_cstr_some_none buf sz hsz]
        show copy_cstr (some (buf.set 0 nulChar)) sz none = (some (buf.set 0 nulChar), 0)
        rw [copy_cstr_some_none _ sz hsz, List.set_set]
      | some s =>
        obtain ⟨n, hN⟩ : ∃ m, (if s.length ≥ sz then sz - 1 else s.length) = m := ⟨_, rfl⟩
        have hns : n ≤ s.length := by
          rw [← hN]
          split <;> omega
        rw [copy_cstr_some_some buf s sz hsz, hN]
        show copy_cstr (some ((memcpy buf s n).set n nulChar)) sz (some s) =
          (some ((memcpy buf s n).set n nulChar), n)
        rw [copy_cstr_some_some _ s sz hsz, hN, copy_write_idem buf s n hns]

lemma intRepr_iff (x : Int) : IntRepr x ↔ -2147483648 ≤ x ∧ x ≤ 2147483647 := Iff.rfl

lemma tdiv_repr (a b : Int) (ha : IntRepr a) (hb0 : b ≠ 0)
    (hmin : ¬(a = intMin ∧ b = -1)) : IntRepr (a.tdiv b) := by
  have habs : (a.tdiv b).natAbs = a.natAbs / b.natAbs := Int.natAbs_tdiv a b
  rw [intRepr_iff] at ha ⊢
  by_cases hA : a = -2147483648
  · by_cases hB : b = 1
    · subst hB
      rw [Int.tdiv_one]
      omega
    · have hbne : b ≠ -1 := fun h => hmin ⟨hA, h⟩
      have hb2 : 2 ≤ b.natAbs := by omega
      have h3 : (a.tdiv b).natAbs ≤ a.natAbs / 2 := by
        rw [habs]
        exact Nat.div_le_div_left hb2 (by norm_num)
      have h4 : a.natAbs = 2147483648 := by
        rw [hA]
        rfl
      rw [h4] at h3
      omega
  · have h6 : (a.tdiv b).natAbs ≤ a.natAbs := by
      rw [habs]
      exact Nat.div_le_self _ _
    omega

/-- C3 counterexample: at `a = INT_MIN`, `b = -1` the quotient `2^31`
overflows `int`, the C++ division is undefined behavior, and the model
records no defined result; `safe_div` is therefore not total on all
representable operand pairs. -/
theorem safe_div_overflow_undefined : safe_div intMin (-1) = none := by decide

/-- C3 (amended): `safe_div` produces a defined result and never traps for
every pair of representable signed operands except `a = INT_MIN`, `b = -1`,
where the truncating quotient is unrepresentable. -/
theorem safe_div_defined (a b : Int) (ha : IntRepr a) (_hb : IntRepr b)
    (hmin : ¬(a = intMin ∧ b = -1)) : (safe_div a b).isSome = true := by
  by_cases hb0 : b = 0
  · simp [safe_div, hb0]
  · obtain ⟨h1, h2⟩ := tdiv_repr a b ha hb0 hmin
    simp [safe_div, hb0, h1, h2]

theorem safe_div_defined_witness :
    IntRepr (-7) ∧ IntRepr 2 ∧ ¬((-7 : Int) = intMin ∧ (2 : Int) = -1) ∧
      (safe_div (-7) 2).isSome = true :=
  ⟨by decide, by decide, by decide, safe_div_defined (-7) 2 (by decide) (by decide) (by decide)⟩

/-- C4 counterexample: at `a = INT_MIN`, `b = -1` (a nonzero divisor) the
code does not return the truncating quotient `2^31`: the division is
undefined behavior, so the model yields no result at all. -/
theorem safe_div_overflow_not_quotient :
    safe_div intMin (-1) ≠ some (Int.tdiv intMin (-1)) := by decide

/-- C4 (amended): for every pair of representable integers `a`, `b` with
`b ≠ 0`, except `a = INT_MIN`, `b = -1` where the quotient overflows,
`safe_div(a, b)` returns the truncating-toward-zero quotient of `a` by
`b`. -/
theorem safe_div_eq_tdiv (a b : Int) (ha : IntRepr a) (_hb : IntRepr b) (hb0 : b ≠ 0)
    (hmin : ¬(a = intMin ∧ b = -1)) : safe_div a b = some (a.tdiv b) := by
  obtain ⟨h1, h2⟩ := tdiv_repr a b ha hb0 hmin
  simp [safe_div, hb0, h1, h2]

theorem safe_div_eq_tdiv_witness :
    IntRepr 10 ∧ IntRepr 3 ∧ (3 : Int) ≠ 0 ∧ ¬((10 : Int) = intMin ∧ (3 : Int) = -1) ∧
      safe_div 10 3 = some (Int.tdiv 10 3) :=
  ⟨by decide, by decide, by decide, by decide,
    safe_div_eq_tdiv 10 3 (by decide) (by decide) (by decide) (by decide)⟩

end LegacySample
